import Mathlib

/-!
Verification of the inventory catalog in `src/inventory/src/main.rs`.

The Rust program keeps a `Collection` holding a `HashMap<String, Item>`,
where an `Item` records a `_name : String` and a `_quantity : u8`, and the
`main` loop dispatches user choices to `add_item`, `update_item`,
`list_item`, or `break`.

The `HashMap` is embedded as an association list with unique keys
(`Collection.WF`): `HashMap::insert` replaces the entry of an existing key
in place, `get_mut` finds the entry of a key, and `values` enumerates the
stored records.  Quantities are `u8` in the source; they are only ever
stored and copied (never combined arithmetically), so they are carried as
`Nat` holding the 0–255 values with no modular arithmetic needed.
-/

/-- `Item` from `src/inventory/src/main.rs`: a name and a quantity. -/
structure Item where
  _name : String
  _quantity : Nat
  deriving Repr, DecidableEq

/-- `Collection` from `src/inventory/src/main.rs`: the `HashMap<String, Item>`
as an association list from key to record. -/
structure Collection where
  _items : List (String × Item)
  deriving Repr, DecidableEq

/-- `Collection::new`: an empty mapping. -/
def Collection.new : Collection := ⟨[]⟩

/-- `HashMap::get` / `get_mut` lookup: the record stored under a key. -/
def findItem : List (String × Item) → String → Option Item
  | [], _ => none
  | (k', v') :: rest, k => if k' = k then some v' else findItem rest k

/-- `HashMap::insert`: replace the entry of an existing key in place,
otherwise add a new entry. -/
def insertAssoc : List (String × Item) → String → Item → List (String × Item)
  | [], k, v => [(k, v)]
  | (k', v') :: rest, k, v =>
      if k' = k then (k, v) :: rest else (k', v') :: insertAssoc rest k v

/-- The in-place mutation `item._quantity = quantity` performed through
`get_mut`: the entry of key `k` keeps its name, its quantity becomes `q`. -/
def updateAssoc : List (String × Item) → String → Nat → List (String × Item)
  | [], _, _ => []
  | (k', v') :: rest, k, q =>
      if k' = k then (k', ⟨v'._name, q⟩) :: rest
      else (k', v') :: updateAssoc rest k q

/-- `Collection::add_item`: build an `Item` from `name` and `quantity` and
`insert` it under `name` (replacing any existing entry for that key), then
print the "added an item" message.  There is no error path. -/
def Collection.add_item (c : Collection) (name : String) (quantity : Nat) :
    Collection :=
  ⟨insertAssoc c._items name ⟨name, quantity⟩⟩

/-- The two outcomes `Collection::update_item` reports: the "Updated item"
message, or the "NO item in the collection" message. -/
inductive UpdateOutcome where
  | updated
  | notFound
  deriving Repr, DecidableEq

/-- `Collection::update_item`: if `get_mut(&name)` finds an entry, set its
quantity in place and report success; otherwise leave the mapping alone and
report not-found. -/
def Collection.update_item (c : Collection) (name : String) (quantity : Nat) :
    Collection × UpdateOutcome :=
  match findItem c._items name with
  | some _ => (⟨updateAssoc c._items name quantity⟩, UpdateOutcome.updated)
  | none => (c, UpdateOutcome.notFound)

/-- `Collection::list_item`: if the mapping `is_empty`, print the explicit
"There are no items in the list" message (modelled as `none`); otherwise
yield the stored records, one per entry (`values`). -/
def Collection.list_item (c : Collection) : Option (List Item) :=
  if c._items.isEmpty then none else some (c._items.map Prod.snd)

/-- The keys currently stored in the mapping. -/
def Collection.keys (c : Collection) : List String := c._items.map Prod.fst

/-- The `HashMap` representation invariant: keys are unique.  Every state a
real `HashMap<String, Item>` can be in satisfies this. -/
def Collection.WF (c : Collection) : Prop := c.keys.Nodup

/-- The three catalog operations a caller can request. -/
inductive Op where
  | upsert (name : String) (quantity : Nat)
  | updateQ (name : String) (quantity : Nat)
  | listAll
  deriving Repr, DecidableEq

/-- The state transformer of one catalog operation: `add_item` and
`update_item` take `&mut self`; `list_item` takes `&self` and leaves the
collection as it was. -/
def applyOp (c : Collection) : Op → Collection
  | Op.upsert name quantity => c.add_item name quantity
  | Op.updateQ name quantity => (c.update_item name quantity).1
  | Op.listAll => c

/-- Running a sequence of catalog operations from a starting state. -/
def run (c : Collection) (ops : List Op) : Collection := ops.foldl applyOp c

/-- The two control states of the `main` loop: the `loop` body runs again,
or `break` was reached. -/
inductive LoopState where
  | Running
  | Terminated
  deriving Repr, DecidableEq

/-- One iteration of the `match choice` dispatch in `main`:
choice 1 calls `add_item("Apple", 5)`, choice 2 calls
`update_item("Apple", 8)`, choice 3 calls `list_item` (which borrows the
collection immutably), choice 4 is `break`, and anything else prints
"failed to recognize the choice" without touching the collection. -/
def mainStep (c : Collection) (choice : Nat) : Collection × LoopState :=
  match choice with
  | 1 => (c.add_item "Apple" 5, LoopState.Running)
  | 2 => ((c.update_item "Apple" 8).1, LoopState.Running)
  | 3 => (c, LoopState.Running)
  | 4 => (c, LoopState.Terminated)
  | _ => (c, LoopState.Running)

/-- One step of the whole loop: in `Running` the body dispatches the next
choice; after `break` nothing further happens. -/
def loopStep : Collection × LoopState → Nat → Collection × LoopState
  | (c, LoopState.Running), choice => mainStep c choice
  | (c, LoopState.Terminated), _ => (c, LoopState.Terminated)

/-- The reference `main` run on a list of choices: the collection starts
empty (`Collection::new`) and the loop starts in `Running`. -/
def runMain (choices : List Nat) : Collection × LoopState :=
  choices.foldl loopStep (Collection.new, LoopState.Running)

/-! ## Properties of the mapping operations -/

theorem findItem_insertAssoc_self (items : List (String × Item)) (k : String)
    (v : Item) : findItem (insertAssoc items k v) k = some v := by
  induction items with
  | nil => simp [insertAssoc, findItem]
  | cons p rest ih =>
    obtain ⟨k0, v0⟩ := p
    by_cases h : k0 = k
    · simp [insertAssoc, h, findItem]
    · simp [insertAssoc, h, findItem, ih]

theorem findItem_insertAssoc_ne (items : List (String × Item)) (k k' : String)
    (v : Item) (h : k' ≠ k) :
    findItem (insertAssoc items k v) k' = findItem items k' := by
  induction items with
  | nil => simp [insertAssoc, findItem, Ne.symm h]
  | cons p rest ih =>
    obtain ⟨k0, v0⟩ := p
    by_cases h0 : k0 = k
    · subst h0
      simp [insertAssoc, findItem, Ne.symm h]
    · simp [insertAssoc, h0, findItem, ih]

theorem keys_insertAssoc (items : List (String × Item)) (k : String) (v : Item) :
    (insertAssoc items k v).map Prod.fst =
      if k ∈ items.map Prod.fst then items.map Prod.fst
      else items.map Prod.fst ++ [k] := by
  induction items with
  | nil => simp [insertAssoc]
  | cons p rest ih =>
    obtain ⟨k0, v0⟩ := p
    by_cases h : k0 = k
    · subst h
      simp [insertAssoc]
    · by_cases hm : k ∈ rest.map Prod.fst
      · simp [insertAssoc, h, ih, hm, Ne.symm h]
      · simp [insertAssoc, h, ih, hm, Ne.symm h]

theorem mem_insertAssoc (items : List (String × Item)) (k : String) (v : Item)
    (p : String × Item) (hp : p ∈ insertAssoc items k v) :
    p ∈ items ∨ p = (k, v) := by
  induction items with
  | nil =>
    simp [insertAssoc] at hp
    exact Or.inr hp
  | cons q rest ih =>
    obtain ⟨k0, v0⟩ := q
    by_cases h : k0 = k
    · simp [insertAssoc, h] at hp
      rcases hp with hp | hp
      · exact Or.inr hp
      · exact Or.inl (List.mem_cons_of_mem _ hp)
    · simp [insertAssoc, h] at hp
      rcases hp with hp | hp
      · exact Or.inl (by simp [hp])
      · rcases ih hp with h1 | h1
        · exact Or.inl (List.mem_cons_of_mem _ h1)
        · exact Or.inr h1

theorem keys_updateAssoc (items : List (String × Item)) (k : String) (q : Nat) :
    (updateAssoc items k q).map Prod.fst = items.map Prod.fst := by
  induction items with
  | nil => simp [updateAssoc]
  | cons p rest ih =>
    obtain ⟨k0, v0⟩ := p
    by_cases h : k0 = k
    · simp [updateAssoc, h]
    · simp [updateAssoc, h, ih]

theorem findItem_updateAssoc_self (items : List (String × Item)) (k : String)
    (q : Nat) (it : Item) (hit : findItem items k = some it) :
    findItem (updateAssoc items k q) k = some ⟨it._name, q⟩ := by
  induction items with
  | nil => simp [findItem] at hit
  | cons p rest ih =>
    obtain ⟨k0, v0⟩ := p
    by_cases h : k0 = k
    · simp [findItem, h] at hit
      subst hit
      simp [updateAssoc, h, findItem]
    · simp [findItem, h] at hit
      simp [updateAssoc, h, findItem, ih hit]

theorem findItem_updateAssoc_ne (items : List (String × Item)) (k k' : String)
    (q : Nat) (h : k' ≠ k) :
    findItem (updateAssoc items k q) k' = findItem items k' := by
  induction items with
  | nil => simp [updateAssoc]
  | cons p rest ih =>
    obtain ⟨k0, v0⟩ := p
    by_cases h0 : k0 = k
    · subst h0
      simp [updateAssoc, findItem, Ne.symm h]
    · simp [updateAssoc, h0, findItem, ih]

theorem mem_updateAssoc (items : List (String × Item)) (k : String) (q : Nat)
    (p : String × Item) (hp : p ∈ updateAssoc items k q) :
    ∃ v0, (p.1, v0) ∈ items ∧ p.2._name = v0._name := by
  induction items with
  | nil => simp [updateAssoc] at hp
  | cons r rest ih =>
    obtain ⟨k0, v0⟩ := r
    by_cases h : k0 = k
    · subst h
      simp [updateAssoc] at hp
      rcases hp with hp | hp
      · exact ⟨v0, by simp [hp], by simp [hp]⟩
      · exact ⟨p.2, by simp [List.mem_cons_of_mem _ hp], rfl⟩
    · simp [updateAssoc, h] at hp
      rcases hp with hp | hp
      · exact ⟨p.2, by simp [hp], rfl⟩
      · obtain ⟨w, hw, hn⟩ := ih hp
        exact ⟨w, List.mem_cons_of_mem _ hw, hn⟩

theorem findItem_isSome_iff_mem (items : List (String × Item)) (k : String) :
    (findItem items k).isSome = true ↔ k ∈ items.map Prod.fst := by
  induction items with
  | nil => simp [findItem]
  | cons p rest ih =>
    obtain ⟨k0, v0⟩ := p
    by_cases h : k0 = k
    · simp [findItem, h]
    · simp [findItem, h, ih, Ne.symm h]

/-! ## Lifting to the `Collection` operations -/

theorem keys_add_item (c : Collection) (name : String) (quantity : Nat) :
    (c.add_item name quantity).keys =
      if name ∈ c.keys then c.keys else c.keys ++ [name] :=
  keys_insertAssoc c._items name ⟨name, quantity⟩

theorem WF_add_item (c : Collection) (name : String) (quantity : Nat)
    (hwf : c.WF) : (c.add_item name quantity).WF := by
  unfold Collection.WF at hwf ⊢
  rw [keys_add_item]
  by_cases hm : name ∈ c.keys
  · simpa [hm] using hwf
  · simp [hm, List.nodup_append, hwf]

theorem count_keys_add_item (c : Collection) (name : String) (quantity : Nat)
    (hwf : c.WF) : (c.add_item name quantity).keys.count name = 1 := by
  rw [keys_add_item]
  by_cases hm : name ∈ c.keys
  · simpa [hm] using List.count_eq_one_of_mem hwf hm
  · simp [hm, List.count_append, List.count_eq_zero_of_not_mem hm]

theorem keys_update_item (c : Collection) (name : String) (quantity : Nat) :
    (c.update_item name quantity).1.keys = c.keys := by
  unfold Collection.update_item
  cases h : findItem c._items name with
  | none => rfl
  | some it => simpa [Collection.keys] using keys_updateAssoc c._items name quantity

/-! ## The claims -/

/-- **C1**: `add_item` is total (no error path); afterward the catalog maps
`name` to exactly one record, whose quantity is the given one; upserting the
same name twice leaves exactly one record holding the second quantity (the
existing record is replaced, not quantity-accumulated). -/
theorem add_item_upsert_spec (c : Collection) (name : String) (quantity : Nat)
    (hwf : c.WF) :
    findItem (c.add_item name quantity)._items name = some ⟨name, quantity⟩ ∧
    (c.add_item name quantity).keys.count name = 1 ∧
    ∀ q1 q2 : Nat,
      findItem ((c.add_item name q1).add_item name q2)._items name =
        some ⟨name, q2⟩ ∧
      ((c.add_item name q1).add_item name q2).keys.count name = 1 := by
  refine ⟨findItem_insertAssoc_self _ _ _, count_keys_add_item c name quantity hwf,
    fun q1 q2 => ⟨findItem_insertAssoc_self _ _ _, ?_⟩⟩
  exact count_keys_add_item _ name q2 (WF_add_item c name q1 hwf)

/-- **C1 witness**: upserting "Apple" with 5 and then 8 into the empty
catalog leaves exactly one "Apple" record holding 8. -/
theorem add_item_upsert_spec_witness :
    findItem (Collection.new.add_item "Apple" 5)._items "Apple" =
      some ⟨"Apple", 5⟩ ∧
    (Collection.new.add_item "Apple" 5).keys.count "Apple" = 1 ∧
    ∀ q1 q2 : Nat,
      findItem ((Collection.new.add_item "Apple" q1).add_item "Apple" q2)._items
        "Apple" = some ⟨"Apple", q2⟩ ∧
      ((Collection.new.add_item "Apple" q1).add_item "Apple" q2).keys.count
        "Apple" = 1 :=
  add_item_upsert_spec Collection.new "Apple" 5 (by simp [Collection.WF, Collection.keys, Collection.new])

/-- **C2**: `update_item` on an absent name returns the collection literally
unchanged (same key set, same records, same size) together with the
not-found outcome; it never creates a record for the absent name. -/
theorem update_item_absent_noop (c : Collection) (name : String)
    (quantity : Nat) (habs : findItem c._items name = none) :
    c.update_item name quantity = (c, UpdateOutcome.notFound) := by
  unfold Collection.update_item
  rw [habs]

/-- **C2 witness**: updating "Apple" in the empty catalog is a not-found
no-op. -/
theorem update_item_absent_noop_witness :
    Collection.new.update_item "Apple" 3 =
      (Collection.new, UpdateOutcome.notFound) :=
  update_item_absent_noop Collection.new "Apple" 3 rfl

/-- **C3**: `update_item` on a present name reports success, sets that
record's quantity to the given quantity (keeping its stored name), and the
record under every other key is exactly as it was before the call. -/
theorem update_item_present_spec (c : Collection) (name : String)
    (quantity : Nat) (it : Item) (hpres : findItem c._items name = some it) :
    (c.update_item name quantity).2 = UpdateOutcome.updated ∧
    findItem (c.update_item name quantity).1._items name =
      some ⟨it._name, quantity⟩ ∧
    ∀ k, k ≠ name →
      findItem (c.update_item name quantity).1._items k = findItem c._items k := by
  unfold Collection.update_item
  rw [hpres]
  exact ⟨rfl, findItem_updateAssoc_self c._items name quantity it hpres,
    fun k hk => findItem_updateAssoc_ne c._items name k quantity hk⟩

/-- **C3 witness**: updating "Apple" to 8 after upserting it with 5 succeeds,
stores quantity 8, and leaves the (absent) "Banana" lookup as it was. -/
theorem update_item_present_spec_witness :
    ((Collection.new.add_item "Apple" 5).update_item "Apple" 8).2 =
      UpdateOutcome.updated ∧
    findItem ((Collection.new.add_item "Apple" 5).update_item "Apple" 8).1._items
      "Apple" = some ⟨"Apple", 8⟩ ∧
    ∀ k, k ≠ "Apple" →
      findItem ((Collection.new.add_item "Apple" 5).update_item "Apple" 8).1._items
        k = findItem (Collection.new.add_item "Apple" 5)._items k :=
  update_item_present_spec (Collection.new.add_item "Apple" 5) "Apple" 8
    ⟨"Apple", 5⟩ rfl

/-- **C4**: `list_item` on the empty catalog reports emptiness explicitly
(the `none` outcome, not an empty sequence), and after exactly one upsert
into the empty catalog it yields exactly one record, the inserted one. -/
theorem list_item_empty_then_single (name : String) (quantity : Nat) :
    Collection.new.list_item = none ∧
    (Collection.new.add_item name quantity).list_item =
      some [⟨name, quantity⟩] :=
  ⟨rfl, rfl⟩

/-- **C5**: no operation removes a key: the key set before any operation is
contained in the key set after it; `update_item` and `list_item` leave the
key set unchanged, and `add_item` adds at most the one key it was given. -/
theorem catalog_keys_never_removed (c : Collection) (name : String)
    (quantity : Nat) :
    (∀ op : Op, ∀ k ∈ c.keys, k ∈ (applyOp c op).keys) ∧
    (applyOp c (Op.updateQ name quantity)).keys = c.keys ∧
    (applyOp c Op.listAll).keys = c.keys ∧
    ∀ k ∈ (applyOp c (Op.upsert name quantity)).keys, k ∈ c.keys ∨ k = name := by
  refine ⟨?_, keys_update_item c name quantity, rfl, ?_⟩
  · intro op k hk
    cases op with
    | upsert n q =>
      show k ∈ (c.add_item n q).keys
      rw [keys_add_item]
      by_cases hm : n ∈ c.keys
      · simpa [hm] using hk
      · simp [hm, hk]
    | updateQ n q =>
      show k ∈ (c.update_item n q).1.keys
      rw [keys_update_item]
      exact hk
    | listAll => exact hk
  · intro k hk
    show k ∈ c.keys ∨ k = name
    have := hk
    rw [show (applyOp c (Op.upsert name quantity)).keys =
        (c.add_item name quantity).keys from rfl, keys_add_item] at this
    by_cases hm : name ∈ c.keys
    · simp [hm] at this
      exact Or.inl this
    · simp [hm] at this
      exact this

/-- **C7**: `list_item` borrows the collection immutably, so it leaves the
catalog unchanged, and two calls in a row with no intervening mutation
yield the same records. -/
theorem list_item_restartable (c : Collection) :
    applyOp c Op.listAll = c ∧
    (applyOp c Op.listAll).list_item = c.list_item :=
  ⟨rfl, rfl⟩

/-! ## Reachability invariants -/

/-- The catalog invariant of §3 of the design: keys are unique, and every
stored record's name equals the key it is stored under. -/
def Collection.Inv (c : Collection) : Prop :=
  c.keys.Nodup ∧ ∀ p ∈ c._items, p.2._name = p.1

theorem Inv_update_item (c : Collection) (n : String) (q : Nat)
    (h : c.Inv) : ((c.update_item n q).1).Inv := by
  unfold Collection.update_item
  cases hf : findItem c._items n with
  | none => exact h
  | some it =>
    constructor
    · show ((⟨updateAssoc c._items n q⟩ : Collection)._items.map Prod.fst).Nodup
      rw [keys_updateAssoc]
      exact h.1
    · intro p hp
      obtain ⟨v0, hv0, hn⟩ := mem_updateAssoc c._items n q p hp
      rw [hn]
      exact h.2 (p.1, v0) hv0

theorem Inv_applyOp (c : Collection) (op : Op) (h : c.Inv) :
    (applyOp c op).Inv := by
  cases op with
  | upsert n q =>
    refine ⟨WF_add_item c n q h.1, ?_⟩
    intro p hp
    rcases mem_insertAssoc c._items n ⟨n, q⟩ p hp with h1 | h1
    · exact h.2 p h1
    · rw [h1]
  | updateQ n q => exact Inv_update_item c n q h
  | listAll => exact h

theorem Inv_run (c : Collection) (ops : List Op) (h : c.Inv) :
    (run c ops).Inv := by
  induction ops generalizing c with
  | nil => exact h
  | cons op rest ih => exact ih (applyOp c op) (Inv_applyOp c op h)

/-- **C6**: in every state reachable from the empty catalog by catalog
operations, keys are unique and every stored record's `_name` equals the
key it is stored under. -/
theorem reachable_catalog_inv (ops : List Op) :
    (run Collection.new ops).keys.Nodup ∧
    ∀ p ∈ (run Collection.new ops)._items, p.2._name = p.1 :=
  Inv_run Collection.new ops ⟨List.nodup_nil, by simp [Collection.new]⟩

/-- **C8**: each dispatch of the loop body: choices 1–3 perform the
corresponding catalog call and stay `Running`, choice 4 terminates, and any
unrecognized choice stays `Running` with the catalog untouched. -/
theorem main_loop_transitions (c : Collection) (choice : Nat) :
    mainStep c 1 = (c.add_item "Apple" 5, LoopState.Running) ∧
    mainStep c 2 = ((c.update_item "Apple" 8).1, LoopState.Running) ∧
    mainStep c 3 = (c, LoopState.Running) ∧
    mainStep c 4 = (c, LoopState.Terminated) ∧
    (choice ≠ 1 → choice ≠ 2 → choice ≠ 3 → choice ≠ 4 →
      mainStep c choice = (c, LoopState.Running)) := by
  refine ⟨rfl, rfl, rfl, rfl, ?_⟩
  intro h1 h2 h3 h4
  rcases choice with _ | _ | _ | _ | _ | n
  · rfl
  · exact absurd rfl h1
  · exact absurd rfl h2
  · exact absurd rfl h3
  · exact absurd rfl h4
  · rfl

/-- **C9**: the catalog never validates that a name is non-empty: upserting
the empty string stores a record keyed by it, and updating by the empty
string succeeds exactly when the empty string is a stored key. -/
theorem empty_name_not_validated (c : Collection) (q : Nat) :
    findItem (c.add_item "" q)._items "" = some ⟨"", q⟩ ∧
    ((c.update_item "" q).2 = UpdateOutcome.updated ↔ "" ∈ c.keys) := by
  refine ⟨findItem_insertAssoc_self _ _ _, ?_⟩
  have hiff := findItem_isSome_iff_mem c._items ""
  unfold Collection.update_item
  cases hf : findItem c._items "" with
  | none =>
    rw [hf] at hiff
    simp at hiff
    simpa [Collection.keys] using hiff
  | some it =>
    rw [hf] at hiff
    simp at hiff
    simpa [Collection.keys] using hiff

/-- The states the reference loop can put the collection in: empty, or one
"Apple" record. -/
def RefInv (c : Collection) : Prop :=
  c._items = [] ∨ ∃ q, c._items = [("Apple", ⟨"Apple", q⟩)]

theorem RefInv_mainStep (c : Collection) (choice : Nat) (h : RefInv c) :
    RefInv (mainStep c choice).1 := by
  rcases choice with _ | _ | _ | _ | _ | n
  · exact h
  · rcases h with h | ⟨q, h⟩
    · exact Or.inr ⟨5, by simp [mainStep, Collection.add_item, h, insertAssoc]⟩
    · exact Or.inr ⟨5, by simp [mainStep, Collection.add_item, h, insertAssoc]⟩
  · rcases h with h | ⟨q, h⟩
    · exact Or.inl (by simp [mainStep, Collection.update_item, h, findItem])
    · exact Or.inr ⟨8, by
        simp [mainStep, Collection.update_item, h, findItem, updateAssoc]⟩
  · exact h
  · exact h
  · exact h

theorem RefInv_loopStep (s : Collection × LoopState) (choice : Nat)
    (h : RefInv s.1) : RefInv (loopStep s choice).1 := by
  obtain ⟨c, ls⟩ := s
  cases ls with
  | Running => exact RefInv_mainStep c choice h
  | Terminated => exact h

theorem RefInv_runMain (choices : List Nat) : RefInv (runMain choices).1 := by
  have key : ∀ s : Collection × LoopState, RefInv s.1 →
      RefInv (choices.foldl loopStep s).1 := by
    induction choices with
    | nil => exact fun s h => h
    | cons ch rest ih => exact fun s h => ih (loopStep s ch) (RefInv_loopStep s ch h)
  exact key (Collection.new, LoopState.Running) (Or.inl rfl)

/-- **C10**: every catalog state the reference loop can reach holds at most
one record, and any record it holds is keyed "Apple". -/
theorem reference_loop_apple_only (choices : List Nat) :
    (runMain choices).1._items.length ≤ 1 ∧
    ∀ p ∈ (runMain choices).1._items, p.1 = "Apple" := by
  rcases RefInv_runMain choices with h | ⟨q, h⟩
  · simp [h]
  · simp [h]
